import Mathlib

/-!
Verification of the vector-storage subsystem of the personal-rag repository
(src/storage/storage.py and src/storage/elastic.py), as a shallow embedding.

Modelling conventions:
* Python strings are `List Char`; Python floats that carry similarity scores
  and embedding coordinates are `ℚ`.
* The embedding provider is a total function `List Char → List ℚ`; its failure
  value is the empty list, exactly as in the repository.
* `hashlib.md5(...).hexdigest()` is an uninterpreted parameter
  `md5hex : List Char → List Char` threaded through the definitions; no claim
  depends on the actual hash values.
* Python exceptions are made explicit with `Except PyErr`.
* The Elasticsearch client is an external collaborator and is modelled as an
  oracle (`ESClient`) returning either hits or an error, mirroring the calls
  the repository makes.
-/

/-- Exceptions that the modelled code can raise or observe. -/
inductive PyErr where
  | typeError
  | valueError
  | attributeError
  | backendError (msg : List Char)
deriving DecidableEq, Repr

/-- Characters on which Python's `str.split()` (no argument) splits. -/
def isPySpace (ch : Char) : Bool :=
  ch = ' ' || ch = '\t' || ch = '\n' || ch = '\r' || ch = '\x0b' || ch = '\x0c'

/-- Accumulator-based model of Python `str.split()`: split on runs of
whitespace and drop empty pieces.  `acc` holds the current word reversed. -/
def pySplitAux : List Char → List Char → List (List Char)
  | [], acc => if acc.isEmpty then [] else [acc.reverse]
  | ch :: cs, acc =>
      if isPySpace ch then
        if acc.isEmpty then pySplitAux cs [] else acc.reverse :: pySplitAux cs []
      else
        pySplitAux cs (ch :: acc)

/-- Python `text.split()`. -/
def pySplit (text : List Char) : List (List Char) := pySplitAux text []

/-- Python `" ".join(words)`. -/
def joinWords : List (List Char) → List Char
  | [] => []
  | [w] => w
  | w :: w' :: ws => w ++ ' ' :: joinWords (w' :: ws)

/-- Decimal rendering of a natural number, as in a Python f-string. -/
def natStr (n : ℕ) : List Char := Nat.toDigits 10 n

/-- storage.py `DocumentChunk` (fields used by the storage path; the unused
optional `embedding` field and the metadata map, which is always empty on this
path, are not carried). -/
structure DocumentChunk where
  content : List Char
  filename : List Char
  chunk_index : ℕ
  chunk_id : List Char
deriving DecidableEq, Repr

/-- storage.py `DocumentChunk.__post_init__` applied to a freshly constructed
chunk with `chunk_id=None`: the id is derived from the filename, the index and
the first 8 hex characters of the md5 of the content, at construction time. -/
def mkDocumentChunk (md5hex : List Char → List Char) (content filename : List Char)
    (chunk_index : ℕ) : DocumentChunk :=
  { content := content
    filename := filename
    chunk_index := chunk_index
    chunk_id := filename ++ '_' :: natStr chunk_index ++ '_' :: (md5hex content).take 8 }

/-- Python `range(0, n, step)` where `step` may be any integer: a zero step
raises `ValueError`; a negative step yields no indices (since `n ≥ 0`);
a positive step yields `0, step, 2*step, ...` below `n`. -/
def pyRangeStep (n : ℕ) (step : ℤ) : Except PyErr (List ℕ) :=
  if step = 0 then .error .valueError
  else if step < 0 then .ok []
  else .ok (List.range' 0 ((n + step.toNat - 1) / step.toNat) step.toNat)

/-- The body of the `for i in range(...)` loop of storage.py `chunk_text`,
including the mid-loop `break` once `i + chunk_size >= len(words)`.  Each chunk
is built with `filename=""` (the comment in the source says the caller will set
it) and `chunk_index = len(chunks)`. -/
def chunkLoop (md5hex : List Char → List Char) (words : List (List Char))
    (chunk_size : ℕ) : List ℕ → List DocumentChunk → List DocumentChunk
  | [], chunks => chunks
  | i :: rest, chunks =>
      let chunk_content := joinWords ((words.drop i).take chunk_size)
      let chunk := mkDocumentChunk md5hex chunk_content [] chunks.length
      let chunks' := chunks ++ [chunk]
      if words.length ≤ i + chunk_size then chunks'
      else chunkLoop md5hex words chunk_size rest chunks'

/-- storage.py `VectorStorage.chunk_text`: split into words and slide a window
of `chunk_size` words advancing by `chunk_size - overlap` via Python `range`
(no guard on the step: `overlap = chunk_size` raises `ValueError`,
`overlap > chunk_size` makes the range empty). -/
def chunk_text (md5hex : List Char → List Char) (text : List Char)
    (chunk_size overlap : ℕ) : Except PyErr (List DocumentChunk) := do
  let words := pySplit text
  let idxs ← pyRangeStep words.length ((chunk_size : ℤ) - (overlap : ℤ))
  pure (chunkLoop md5hex words chunk_size idxs [])

/-- A fixed stand-in value for the uninterpreted md5 parameter, used only to
evaluate the model on concrete inputs. -/
def sampleMd5 : List Char → List Char :=
  fun _ => "d41d8cd98f00b204e9800998ecf8427e".toList

example : (chunk_text sampleMd5 ("A B C D E F".toList) 4 1).map
    (List.map DocumentChunk.content) = .ok [("A B C D".toList), ("D E F".toList)] := rfl

example : chunk_text sampleMd5 ("A B".toList) 2 2 = .error PyErr.valueError := rfl

example : chunk_text sampleMd5 ("A B".toList) 2 3 = .ok [] := rfl

example : (chunk_text sampleMd5 ("A".toList) 4 1).map List.length = .ok 1 := rfl

/-- Normal form of the `chunk_text` loop: the chunks produced from window
start `j`, with `m` loop indices left and next chunk index `idx`. -/
def produce (md5hex : List Char → List Char) (words : List (List Char))
    (c s : ℕ) : ℕ → ℕ → ℕ → List DocumentChunk
  | 0, _, _ => []
  | m + 1, j, idx =>
      let ch := mkDocumentChunk md5hex (joinWords ((words.drop j).take c)) [] idx
      if words.length ≤ j + c then [ch]
      else ch :: produce md5hex words c s m (j + s) (idx + 1)

theorem chunkLoop_eq_produce (md5hex : List Char → List Char)
    (words : List (List Char)) (c s : ℕ) :
    ∀ (m j : ℕ) (acc : List DocumentChunk),
      chunkLoop md5hex words c (List.range' j m s) acc =
        acc ++ produce md5hex words c s m j acc.length := by
  intro m
  induction m with
  | zero => intro j acc; simp [chunkLoop, produce]
  | succ m ih =>
      intro j acc
      rw [List.range'_succ]
      simp only [chunkLoop, produce]
      by_cases h : words.length ≤ j + c
      · simp [h]
      · simp only [h, if_false, ih (j + s) (acc ++ [_])]
        simp [List.append_assoc]

theorem chunk_text_eq_produce (md5hex : List Char → List Char) (text : List Char)
    (c o : ℕ) (h : o < c) :
    chunk_text md5hex text c o =
      .ok (produce md5hex (pySplit text) c (c - o)
        (((pySplit text).length + (c - o) - 1) / (c - o)) 0 0) := by
  have h1 : ¬ ((c : ℤ) - (o : ℤ) = 0) := by omega
  have h2 : ¬ ((c : ℤ) - (o : ℤ) < 0) := by omega
  have h3 : ((c : ℤ) - (o : ℤ)).toNat = c - o := by omega
  simp only [chunk_text, pyRangeStep, h1, h2, h3, if_false]
  rw [show (Except.ok (ε := PyErr) (List.range' 0 (((pySplit text).length + (c - o) - 1) / (c - o)) (c - o))
    >>= fun idxs => pure (chunkLoop md5hex (pySplit text) c idxs [])) =
    Except.ok (chunkLoop md5hex (pySplit text) c
      (List.range' 0 (((pySplit text).length + (c - o) - 1) / (c - o)) (c - o)) []) from rfl]
  rw [chunkLoop_eq_produce]
  rfl

/-- Arithmetic step: consuming one window advances the remaining range count
by exactly one. -/
theorem range_count_step (n j s : ℕ) (hs : 0 < s) (hj : j + s < n) :
    (n - j + s - 1) / s = (n - (j + s) + s - 1) / s + 1 := by
  have e : n - j + s - 1 = (n - (j + s) + s - 1) + s := by omega
  rw [e, Nat.add_div_right _ hs]

theorem produce_length (md5hex : List Char → List Char) (words : List (List Char))
    (c o s : ℕ) (hs : s = c - o) (ho : o < c) :
    ∀ (m j idx : ℕ), j < words.length → m = (words.length - j + s - 1) / s →
      (produce md5hex words c s m j idx).length =
        max 1 ((words.length - j - o + s - 1) / s) := by
  have hs0 : 0 < s := by omega
  intro m
  induction m with
  | zero =>
      intro j idx hj hm
      exfalso
      have := (Nat.div_eq_zero_iff hs0).mp hm.symm
      omega
  | succ m ih =>
      intro j idx hj hm
      simp only [produce]
      by_cases hbreak : words.length ≤ j + c
      · have hle : (words.length - j - o + s - 1) / s ≤ 1 := by
          have : words.length - j - o + s - 1 < 2 * s := by omega
          have := (Nat.div_lt_iff_lt_mul hs0).mpr this
          omega
        simp [hbreak]
        omega
      · push_neg at hbreak
        have hjs : j + s < words.length := by omega
        have hm' : m = (words.length - (j + s) + s - 1) / s := by
          have := range_count_step words.length j s hs0 hjs
          omega
        simp only [hbreak.not_le, if_false, List.length_cons,
          ih (j + s) (idx + 1) (by omega) hm']
        have hA : s < words.length - j - o := by omega
        have e1 : words.length - (j + s) - o + s - 1 = (words.length - j - o - 1) := by omega
        rw [e1]
        have h2 : 1 ≤ (words.length - j - o - 1) / s :=
          (Nat.le_div_iff_mul_le hs0).mpr (by omega)
        have h3 : (words.length - j - o + s - 1) = (words.length - j - o - 1) + s := by omega
        rw [h3, Nat.add_div_right _ hs0]
        omega

theorem produce_map_index (md5hex : List Char → List Char) (words : List (List Char))
    (c s : ℕ) :
    ∀ (m j idx : ℕ),
      (produce md5hex words c s m j idx).map DocumentChunk.chunk_index =
        List.range' idx (produce md5hex words c s m j idx).length := by
  intro m
  induction m with
  | zero => intro j idx; simp [produce]
  | succ m ih =>
      intro j idx
      simp only [produce]
      by_cases hbreak : words.length ≤ j + c
      · simp [hbreak, mkDocumentChunk, List.range'_succ]
      · simp only [hbreak, if_false, List.map_cons, List.length_cons, ih (j + s) (idx + 1)]
        rw [List.range'_succ]
        rfl

/-- A word as produced by `pySplit`: non-empty and free of whitespace. -/
def goodWord (w : List Char) : Prop := w ≠ [] ∧ ∀ ch ∈ w, isPySpace ch = false

theorem pySplitAux_append_word (w rest acc : List Char)
    (hw : ∀ ch ∈ w, isPySpace ch = false) :
    pySplitAux (w ++ rest) acc = pySplitAux rest (w.reverse ++ acc) := by
  induction w generalizing acc with
  | nil => simp
  | cons ch w ih =>
      have hch : isPySpace ch = false := hw ch (by simp)
      show pySplitAux (ch :: (w ++ rest)) acc = _
      simp only [pySplitAux, hch, Bool.false_eq_true, if_false]
      rw [ih (ch :: acc) (fun c hc => hw c (by simp [hc]))]
      simp

theorem pySplit_joinWords : ∀ ws : List (List Char),
    (∀ w ∈ ws, goodWord w) → pySplit (joinWords ws) = ws := by
  intro ws
  induction ws with
  | nil => intro; rfl
  | cons w ws ih =>
      intro hg
      obtain ⟨hne, hnosp⟩ := hg w (by simp)
      have hrevne : w.reverse.isEmpty = false := by
        simp [List.isEmpty_iff, hne]
      cases ws with
      | nil =>
          show pySplitAux (joinWords [w]) [] = [w]
          have : joinWords [w] = w ++ [] := by simp [joinWords]
          rw [this, pySplitAux_append_word w [] [] hnosp]
          simp [pySplitAux, hrevne]
      | cons w' ws' =>
          show pySplitAux (joinWords (w :: w' :: ws')) [] = w :: w' :: ws'
          have : joinWords (w :: w' :: ws') = w ++ ' ' :: joinWords (w' :: ws') := rfl
          rw [this, pySplitAux_append_word w _ [] hnosp]
          have hsp : isPySpace ' ' = true := by decide
          simp only [pySplitAux, hsp, if_true, List.append_nil, hrevne,
            Bool.false_eq_true, if_false, List.reverse_reverse]
          exact congrArg (w :: ·) (ih (fun x hx => hg x (by simp [hx])))

theorem pySplitAux_good : ∀ (t acc : List Char),
    (∀ ch ∈ acc, isPySpace ch = false) →
    ∀ w ∈ pySplitAux t acc, goodWord w := by
  intro t
  induction t with
  | nil =>
      intro acc hacc w hw
      simp only [pySplitAux] at hw
      by_cases he : acc.isEmpty
      · simp [he] at hw
      · simp only [he, Bool.false_eq_true, if_false, List.mem_singleton] at hw
        subst hw
        refine ⟨?_, ?_⟩
        · simp only [ne_eq, List.reverse_eq_nil_iff]
          intro h
          rw [h] at he
          exact he rfl
        · intro ch hch
          exact hacc ch (List.mem_reverse.mp hch)
  | cons ch cs ih =>
      intro acc hacc w hw
      simp only [pySplitAux] at hw
      by_cases hsp : isPySpace ch
      · simp only [hsp, if_true] at hw
        by_cases he : acc.isEmpty
        · simp only [he, if_true] at hw
          exact ih [] (by simp) w hw
        · simp only [he, Bool.false_eq_true, if_false, List.mem_cons] at hw
          rcases hw with hw | hw
          · subst hw
            refine ⟨?_, fun c hc => hacc c (List.mem_reverse.mp hc)⟩
            simp only [ne_eq, List.reverse_eq_nil_iff]
            intro h
            rw [h] at he
            exact he rfl
          · exact ih [] (by simp) w hw
      · simp only [hsp, if_false] at hw
        refine ih (ch :: acc) ?_ w hw
        intro c hc
        rcases List.mem_cons.mp hc with hc | hc
        · subst hc; simpa using hsp
        · exact hacc c hc

theorem pySplit_good (t : List Char) : ∀ w ∈ pySplit t, goodWord w :=
  pySplitAux_good t [] (by simp)

theorem slice_good (words : List (List Char)) (hg : ∀ w ∈ words, goodWord w)
    (j c : ℕ) : ∀ w ∈ (words.drop j).take c, goodWord w := by
  intro w hw
  exact hg w (((List.take_sublist c _).trans (List.drop_sublist j words)).subset hw)

theorem produce_reconstruct (md5hex : List Char → List Char)
    (words : List (List Char)) (c o s : ℕ) (hs : s = c - o) (ho : o < c)
    (hg : ∀ w ∈ words, goodWord w) :
    ∀ (m j idx : ℕ), j < words.length → m = (words.length - j + s - 1) / s →
      ((produce md5hex words c s m j idx).map
        (fun ch => (pySplit ch.content).drop o)).flatten = words.drop (j + o) := by
  have hs0 : 0 < s := by omega
  intro m
  induction m with
  | zero =>
      intro j idx hj hm
      exfalso
      have := (Nat.div_eq_zero_iff hs0).mp hm.symm
      omega
  | succ m ih =>
      intro j idx hj hm
      simp only [produce]
      have hsplit : pySplit (joinWords ((words.drop j).take c)) = (words.drop j).take c :=
        pySplit_joinWords _ (slice_good words hg j c)
      by_cases hbreak : words.length ≤ j + c
      · simp only [hbreak, if_true, List.map_cons, List.map_nil, List.flatten,
          mkDocumentChunk, hsplit, List.append_nil]
        rw [List.drop_take c o _, List.drop_drop o j words]
        exact List.take_of_length_le (by simp; omega)
      · push_neg at hbreak
        have hjs : j + s < words.length := by omega
        have hm' : m = (words.length - (j + s) + s - 1) / s := by
          have := range_count_step words.length j s hs0 hjs
          omega
        simp only [hbreak.not_le, if_false, List.map_cons, List.flatten_cons,
          mkDocumentChunk, hsplit]
        rw [ih (j + s) (idx + 1) (by omega) hm']
        rw [List.drop_take c o _, List.drop_drop o j words]
        have e1 : j + s + o = (j + o) + s := by omega
        have e2 : c - o = s := by omega
        rw [e1, e2, show List.drop ((j + o) + s) words =
            List.drop s (List.drop (j + o) words) from (List.drop_drop s (j + o) words).symm,
          List.take_append_drop]

/-- elastic.py `SearchResult` as built from an Elasticsearch hit (the opaque
metadata map, which is passed through untouched, is not carried). -/
structure SearchResult where
  content : List Char
  filename : List Char
  score : ℚ
  chunk_index : ℕ
  chunk_id : Option (List Char)
deriving DecidableEq, Repr

/-- One hit of an Elasticsearch response, with the `_source` fields the code
reads; `chunk_index` and `chunk_id` are read with `.get`, hence optional. -/
structure Hit where
  content : List Char
  filename : List Char
  score : ℚ
  chunk_index : Option ℕ
  chunk_id : Option (List Char)
deriving DecidableEq, Repr

/-- The `SearchResult(...)` constructor call applied to a hit, as in
`_vector_search` and `_search_filename_text`. -/
def hitToResult (h : Hit) : SearchResult :=
  { content := h.content
    filename := h.filename
    score := h.score
    chunk_index := h.chunk_index.getD 0
    chunk_id := h.chunk_id }

/-- An exact-match filter map, as passed in the `filters` argument. -/
abbrev Filters := List (List Char × List Char)

/-- The filter part of the query body built by `_vector_search`. -/
inductive FilterQ where
  | matchAll
  | mustTerms (terms : Filters)
deriving DecidableEq, Repr

/-- The Elasticsearch client, an external collaborator, as an oracle over the
two search shapes the code issues: `vsearch field query_vector size filter`
models the `script_score` cosine query of `_vector_search`, and
`tsearch query size filter` models the `match`-on-filename query of
`_search_filename_text` (an empty filter list stands for the unwrapped
match query). Each call may fail with a backend error. -/
structure ESClient where
  vsearch : List Char → List ℚ → ℕ → FilterQ → Except PyErr (List Hit)
  tsearch : List Char → ℕ → Filters → Except PyErr (List Hit)

/-- A dynamically typed Python value, needed because `search_similar` passes
its `k` and `filters` arguments into `_search_by_filename`'s `get_embedding_fn`
and `k` parameters. -/
inductive PyVal where
  | none
  | int (n : ℕ)
  | dict (d : Filters)
  | fn (f : List Char → List ℚ)

/-- Calling a Python value with one string argument: only a function is
callable, anything else raises `TypeError`. -/
def pyCall1 : PyVal → List Char → Except PyErr (List ℚ)
  | .fn f, s => .ok (f s)
  | _, _ => .error .typeError

/-- Python truthiness of the modelled values. -/
def pyTruthy : PyVal → Bool
  | .none => false
  | .int n => n != 0
  | .dict d => !d.isEmpty
  | .fn _ => true

/-- Python `.items()`: only a dict has it, anything else raises. -/
def pyItems : PyVal → Except PyErr Filters
  | .dict d => .ok d
  | _ => .error .attributeError

/-- Using a Python value where the Elasticsearch `size` integer is expected;
a non-integer makes the request fail (inside `try`, so it is caught). -/
def pyExpectInt : PyVal → Except PyErr ℕ
  | .int n => .ok n
  | _ => .error .typeError

def pyOfFilters : Option Filters → PyVal
  | Option.none => .none
  | some d => .dict d

/-- elastic.py `_vector_search`: empty query embedding short-circuits to `[]`;
the filter query is built outside the `try`; the search call itself is inside
`try` and any error degrades to `[]`. -/
def _vector_search (es : ESClient) (query_embedding : List ℚ) (field : List Char)
    (k filters : PyVal) : Except PyErr (List SearchResult) := do
  if query_embedding.isEmpty then pure []
  else
    let filter_query ←
      if pyTruthy filters then do
        let items ← pyItems filters
        pure (FilterQ.mustTerms items)
      else pure FilterQ.matchAll
    match (do
        let size ← pyExpectInt k
        es.vsearch field query_embedding size filter_query : Except PyErr (List Hit)) with
    | .ok hits => pure (hits.map hitToResult)
    | .error _ => pure []

/-- elastic.py `_search_by_content`. -/
def _search_by_content (es : ESClient) (query : List Char)
    (get_embedding_fn : List Char → List ℚ) (k : ℕ) (filters : Option Filters) :
    Except PyErr (List SearchResult) :=
  _vector_search es (get_embedding_fn query) ("content_embedding".toList)
    (PyVal.int k) (pyOfFilters filters)

/-- elastic.py `_search_by_filename`.  Its parameters are dynamically typed
because `search_similar` misroutes its arguments into them. -/
def _search_by_filename (es : ESClient) (query : List Char)
    (get_embedding_fn k filters : PyVal) : Except PyErr (List SearchResult) := do
  let query_embedding ← pyCall1 get_embedding_fn query
  _vector_search es query_embedding ("filename_embedding".toList) k filters

/-- elastic.py `_search_combined`. -/
def _search_combined (es : ESClient) (query : List Char)
    (get_embedding_fn : List Char → List ℚ) (k : ℕ) (filters : Option Filters) :
    Except PyErr (List SearchResult) :=
  _vector_search es (get_embedding_fn query) ("combined_embedding".toList)
    (PyVal.int k) (pyOfFilters filters)

/-- elastic.py `_search_filename_text`: the whole body is inside `try`, so a
backend error degrades to `[]` and the function never raises. -/
def _search_filename_text (es : ESClient) (query : List Char) (k : ℕ)
    (filters : Option Filters) : Except PyErr (List SearchResult) :=
  let fs : Filters :=
    match filters with
    | Option.none => []
    | some d => if d.isEmpty then [] else d
  match es.tsearch query k fs with
  | .ok hits => .ok (hits.map hitToResult)
  | .error _ => .ok []

/-- elastic.py `search_similar`: dispatch on `search_type`, any unknown value
falling through to the combined search.  The `filename_only` branch is the
source's positional call `self._search_by_filename(query, k, filters)`, which
binds `k` to `get_embedding_fn` and `filters` to `k`. -/
def search_similar (es : ESClient) (query : List Char)
    (get_embedding_fn : List Char → List ℚ) (k : ℕ) (filters : Option Filters)
    (search_type : List Char) : Except PyErr (List SearchResult) :=
  if search_type = ("filename_only".toList) then
    _search_by_filename es query (PyVal.int k) (pyOfFilters filters) PyVal.none
  else if search_type = ("content_only".toList) then
    _search_by_content es query get_embedding_fn k filters
  else if search_type = ("filename_text".toList) then
    _search_filename_text es query k filters
  else
    _search_combined es query get_embedding_fn k filters

/-- Lookup in the insertion-ordered accumulator dict of `hybrid_search`. -/
def assocFind : List (Option (List Char) × SearchResult) → Option (List Char) →
    Option SearchResult
  | [], _ => Option.none
  | p :: m, key => if p.1 = key then some p.2 else assocFind m key

/-- In-place update of the entry at `key` (Python dict update keeps the
entry's position). -/
def assocUpdate (key : Option (List Char)) (f : SearchResult → SearchResult) :
    List (Option (List Char) × SearchResult) →
    List (Option (List Char) × SearchResult)
  | [] => []
  | p :: m => (if p.1 = key then (p.1, f p.2) else p) :: assocUpdate key f m

/-- One iteration of a fusion loop of `hybrid_search`: a result absent from
the accumulator is inserted with its score scaled by the weight, a present one
gets the weighted score added. -/
def fuseStep (w : ℚ) (m : List (Option (List Char) × SearchResult))
    (r : SearchResult) : List (Option (List Char) × SearchResult) :=
  if (assocFind m r.chunk_id).isSome then
    assocUpdate r.chunk_id (fun e => { e with score := e.score + r.score * w }) m
  else
    m ++ [(r.chunk_id, { r with score := r.score * w })]

/-- The accumulator dict after both fusion loops of `hybrid_search`. -/
def hybridFuse (content_results filename_results : List SearchResult)
    (content_weight filename_weight : ℚ) :
    List (Option (List Char) × SearchResult) :=
  filename_results.foldl (fuseStep filename_weight)
    (content_results.foldl (fuseStep content_weight) [])

/-- Stable insertion into a descending-by-score list: the new element goes
after every earlier element with an equal or larger score. -/
def insertByScoreDesc (r : SearchResult) : List SearchResult → List SearchResult
  | [] => [r]
  | x :: xs => if x.score ≤ r.score then r :: x :: xs else x :: insertByScoreDesc r xs

/-- Python `sorted(..., key=lambda x: x.score, reverse=True)`: a stable sort
descending by score. -/
def pySortDesc : List SearchResult → List SearchResult
  | [] => []
  | x :: xs => insertByScoreDesc x (pySortDesc xs)

/-- elastic.py `hybrid_search`: run the content vector search and the filename
text search, each with size `k*2` and no filters, fuse their scores per
chunk_id, sort descending and keep the first `k`. -/
def hybrid_search (es : ESClient) (query : List Char)
    (get_embedding_fn : List Char → List ℚ) (k : ℕ)
    (content_weight filename_weight : ℚ) : Except PyErr (List SearchResult) := do
  let content_results ← _search_by_content es query get_embedding_fn (k * 2) Option.none
  let filename_results ← _search_filename_text es query (k * 2) Option.none
  let all_results := hybridFuse content_results filename_results content_weight filename_weight
  pure ((pySortDesc (all_results.map Prod.snd)).take k)

/-- A `DocumentChunk` after the embedding loop of `store_document` mutated it:
the filename is overwritten (the already-computed `chunk_id` is not) and the
three embedding attributes are attached. -/
structure EmbChunk where
  content : List Char
  filename : List Char
  chunk_index : ℕ
  chunk_id : List Char
  content_embedding : List ℚ
  filename_embedding : List ℚ
  combined_embedding : List ℚ
deriving DecidableEq, Repr

/-- The document body handed to `es_client.index` by `store_chunks` (the
wall-clock `timestamp` field and the empty metadata map are not carried). -/
structure ESDoc where
  content : List Char
  filename : List Char
  content_embedding : List ℚ
  filename_embedding : List ℚ
  combined_embedding : List ℚ
  chunk_index : ℕ
  chunk_id : List Char
deriving DecidableEq, Repr

/-- One iteration of the embedding loop of elastic.py `store_document`. -/
def embedChunk (get_embedding_fn : List Char → List ℚ) (filename : List Char)
    (include_filename_in_search : Bool) (ch : DocumentChunk) : EmbChunk :=
  let content_embedding := get_embedding_fn ch.content
  { content := ch.content
    filename := filename
    chunk_index := ch.chunk_index
    chunk_id := ch.chunk_id
    content_embedding := content_embedding
    filename_embedding := get_embedding_fn filename
    combined_embedding :=
      if include_filename_in_search then
        get_embedding_fn (("Filename: ".toList) ++ filename ++
          ("\nContent: ".toList) ++ ch.content)
      else content_embedding }

def chunkDoc (ch : EmbChunk) : ESDoc :=
  { content := ch.content
    filename := ch.filename
    content_embedding := ch.content_embedding
    filename_embedding := ch.filename_embedding
    combined_embedding := ch.combined_embedding
    chunk_index := ch.chunk_index
    chunk_id := ch.chunk_id }

/-- elastic.py `store_chunks`: index every chunk, counting successes; an
exception from the client is caught and the chunk skipped.  Besides the
returned count, the model keeps the trace of successfully indexed documents
(the backend's state change, which the Python return value discards). -/
def store_chunks (idx : ESDoc → Except PyErr Unit) (chunks : List EmbChunk) :
    ℕ × List ESDoc :=
  chunks.foldl
    (fun acc ch =>
      let doc := chunkDoc ch
      match idx doc with
      | .ok _ => (acc.1 + 1, acc.2 ++ [doc])
      | .error _ => acc)
    (0, [])

/-- The f-string `f"Indexed {stored_count} chunks from {filename}"`. -/
def statusMsg (stored_count : ℕ) (filename : List Char) : List Char :=
  ("Indexed ".toList) ++ natStr stored_count ++ (" chunks from ".toList) ++ filename

/-- elastic.py `store_document`: chunk, embed each chunk (unconditionally,
even when the provider returns the empty failure value), store, and report
the stored count. -/
def store_document (md5hex : List Char → List Char)
    (idx : ESDoc → Except PyErr Unit) (get_embedding_fn : List Char → List ℚ)
    (content filename : List Char) (chunk_size overlap : ℕ)
    (include_filename_in_search : Bool) : Except PyErr (List Char × List ESDoc) := do
  let chunks ← chunk_text md5hex content chunk_size overlap
  let embedded := chunks.map (embedChunk get_embedding_fn filename include_filename_in_search)
  let res := store_chunks idx embedded
  pure (statusMsg res.1 filename, res.2)


instance : Inhabited SearchResult :=
  ⟨{ content := [], filename := [], score := 0, chunk_index := 0, chunk_id := Option.none }⟩

theorem assocFind_isSome_iff (m : List (Option (List Char) × SearchResult))
    (key : Option (List Char)) :
    (assocFind m key).isSome = true ↔ key ∈ m.map Prod.fst := by
  induction m with
  | nil => simp [assocFind]
  | cons q m ih =>
      by_cases h : q.1 = key
      · simp [assocFind, h]
      · simp only [assocFind, h, if_false, List.map_cons, List.mem_cons, ih]
        constructor
        · exact Or.inr
        · rintro (hk | hk)
          · exact absurd hk.symm h
          · exact hk

theorem assocFind_of_mem (m : List (Option (List Char) × SearchResult))
    (hm : (m.map Prod.fst).Nodup) (p : Option (List Char) × SearchResult)
    (hp : p ∈ m) : assocFind m p.1 = some p.2 := by
  induction m with
  | nil => cases hp
  | cons q m ih =>
      rcases List.mem_cons.mp hp with hp | hp
      · subst hp
        simp [assocFind]
      · have hq : q.1 ≠ p.1 := by
          intro he
          have : p.1 ∈ m.map Prod.fst := List.mem_map.mpr ⟨p, hp, rfl⟩
          rw [← he] at this
          exact (List.nodup_cons.mp hm).1 this
        simp only [assocFind, hq, if_false]
        exact ih (List.nodup_cons.mp hm).2 hp

theorem assocFind_update_self (m : List (Option (List Char) × SearchResult))
    (key : Option (List Char)) (f : SearchResult → SearchResult) :
    assocFind (assocUpdate key f m) key = (assocFind m key).map f := by
  induction m with
  | nil => rfl
  | cons q m ih =>
      by_cases h : q.1 = key
      · simp [assocUpdate, assocFind, h]
      · simp [assocUpdate, assocFind, h, ih]

theorem assocFind_update_ne (m : List (Option (List Char) × SearchResult))
    (key key' : Option (List Char)) (f : SearchResult → SearchResult)
    (h : key' ≠ key) :
    assocFind (assocUpdate key f m) key' = assocFind m key' := by
  induction m with
  | nil => rfl
  | cons q m ih =>
      by_cases hq : q.1 = key
      · have hne : ¬ q.1 = key' := by rw [hq]; exact fun e => h e.symm
        simp [assocUpdate, assocFind, hq, hne, Ne.symm h, ih]
      · by_cases hq' : q.1 = key'
        · simp [assocUpdate, assocFind, hq, hq', h]
        · simp [assocUpdate, assocFind, hq, hq', ih]

theorem assocFind_append_singleton (m : List (Option (List Char) × SearchResult))
    (key key' : Option (List Char)) (v : SearchResult) :
    assocFind (m ++ [(key, v)]) key' =
      match assocFind m key' with
      | some e => some e
      | Option.none => if key = key' then some v else Option.none := by
  induction m with
  | nil => simp [assocFind]
  | cons q m ih =>
      by_cases h : q.1 = key'
      · simp [assocFind, h]
      · simp only [List.cons_append, assocFind, h, if_false]
        exact ih

theorem assocUpdate_keys (m : List (Option (List Char) × SearchResult))
    (key : Option (List Char)) (f : SearchResult → SearchResult) :
    (assocUpdate key f m).map Prod.fst = m.map Prod.fst := by
  induction m with
  | nil => rfl
  | cons q m ih =>
      by_cases h : q.1 = key
      · simp [assocUpdate, h, ih]
      · simp [assocUpdate, h, ih]

theorem assocFind_fuseStep (w : ℚ) (m : List (Option (List Char) × SearchResult))
    (r : SearchResult) (key : Option (List Char)) :
    assocFind (fuseStep w m r) key =
      if key = r.chunk_id then
        match assocFind m r.chunk_id with
        | some e => some { e with score := e.score + r.score * w }
        | Option.none => some { r with score := r.score * w }
      else assocFind m key := by
  unfold fuseStep
  by_cases hs : (assocFind m r.chunk_id).isSome = true
  · rw [if_pos hs]
    by_cases hk : key = r.chunk_id
    · subst hk
      rw [assocFind_update_self, if_pos rfl]
      rcases ho : assocFind m r.chunk_id with _ | e
      · rw [ho] at hs; cases hs
      · rfl
    · rw [assocFind_update_ne m r.chunk_id key _ hk, if_neg hk]
  · rw [if_neg hs, assocFind_append_singleton]
    have ho : assocFind m r.chunk_id = Option.none := by
      rcases ho : assocFind m r.chunk_id with _ | e
      · rfl
      · rw [ho] at hs; simp at hs
    by_cases hk : key = r.chunk_id
    · subst hk
      rw [ho, if_pos rfl]
    · rw [if_neg hk]
      rcases hf : assocFind m key with _ | e
      · have : ¬ r.chunk_id = key := fun e => hk e.symm
        simp [this]
      · rfl

theorem fuseStep_keys_nodup (w : ℚ) (m : List (Option (List Char) × SearchResult))
    (r : SearchResult) (hm : (m.map Prod.fst).Nodup) :
    ((fuseStep w m r).map Prod.fst).Nodup := by
  unfold fuseStep
  by_cases hs : (assocFind m r.chunk_id).isSome = true
  · rw [if_pos hs, assocUpdate_keys]
    exact hm
  · rw [if_neg hs]
    simp only [List.map_append, List.map_cons, List.map_nil]
    have hnot : r.chunk_id ∉ m.map Prod.fst := by
      intro hmem
      exact hs ((assocFind_isSome_iff m r.chunk_id).mpr hmem)
    simp only [List.nodup_append, List.nodup_cons, List.nodup_nil]
    exact ⟨hm, ⟨by simp, trivial⟩, by
      intro a ha hb
      simp only [List.mem_cons, List.not_mem_nil, or_false] at hb
      subst hb
      exact hnot ha⟩

theorem foldl_fuseStep_keys_nodup (w : ℚ) (L : List SearchResult) :
    ∀ m : List (Option (List Char) × SearchResult), (m.map Prod.fst).Nodup →
      ((L.foldl (fuseStep w) m).map Prod.fst).Nodup := by
  induction L with
  | nil => intro m hm; exact hm
  | cons r L ih =>
      intro m hm
      exact ih (fuseStep w m r) (fuseStep_keys_nodup w m r hm)

theorem assocFind_foldl_fuse (w : ℚ) (L : List SearchResult)
    (hL : (L.map SearchResult.chunk_id).Nodup) :
    ∀ (m : List (Option (List Char) × SearchResult)) (key : Option (List Char)),
      assocFind (L.foldl (fuseStep w) m) key =
        match assocFind m key, L.find? (fun r => r.chunk_id == key) with
        | some e, some r => some { e with score := e.score + r.score * w }
        | some e, Option.none => some e
        | Option.none, some r => some { r with score := r.score * w }
        | Option.none, Option.none => Option.none := by
  induction L with
  | nil =>
      intro m key
      simp only [List.foldl_nil, List.find?_nil]
      rcases h : assocFind m key with _ | e <;> rfl
  | cons r L ih =>
      intro m key
      have hL' : (L.map SearchResult.chunk_id).Nodup := (List.nodup_cons.mp (by simpa using hL)).2
      have hnotin : r.chunk_id ∉ L.map SearchResult.chunk_id :=
        (List.nodup_cons.mp (by simpa using hL)).1
      simp only [List.foldl_cons]
      rw [ih hL' (fuseStep w m r) key]
      by_cases hk : key = r.chunk_id
      · subst hk
        have hfind : L.find? (fun r' => r'.chunk_id == r.chunk_id) = Option.none := by
          rw [List.find?_eq_none]
          intro x hx
          simp only [beq_iff_eq]
          intro he
          exact hnotin (List.mem_map.mpr ⟨x, hx, he⟩)
        have hhead : (r :: L).find? (fun r' => r'.chunk_id == r.chunk_id) = some r := by
          rw [List.find?_cons_of_pos]
          simp
        rw [assocFind_fuseStep w m r r.chunk_id, if_pos rfl, hfind, hhead]
        rcases h : assocFind m r.chunk_id with _ | e <;> rfl
      · have hhead : (r :: L).find? (fun r' => r'.chunk_id == key) =
            L.find? (fun r' => r'.chunk_id == key) := by
          rw [List.find?_cons_of_neg]
          simp only [beq_iff_eq]
          exact fun e => hk e.symm
        rw [assocFind_fuseStep w m r key, if_neg hk, hhead]

theorem hybridFuse_find (C F : List SearchResult) (cw fw : ℚ)
    (hC : (C.map SearchResult.chunk_id).Nodup)
    (hF : (F.map SearchResult.chunk_id).Nodup) (key : Option (List Char)) :
    assocFind (hybridFuse C F cw fw) key =
      match C.find? (fun r => r.chunk_id == key), F.find? (fun r => r.chunk_id == key) with
      | some rc, some rf => some { rc with score := rc.score * cw + rf.score * fw }
      | some rc, Option.none => some { rc with score := rc.score * cw }
      | Option.none, some rf => some { rf with score := rf.score * fw }
      | Option.none, Option.none => Option.none := by
  unfold hybridFuse
  rw [assocFind_foldl_fuse fw F hF _ key, assocFind_foldl_fuse cw C hC [] key]
  simp only [assocFind]
  rcases h1 : C.find? (fun r => r.chunk_id == key) with _ | rc <;>
    rcases h2 : F.find? (fun r => r.chunk_id == key) with _ | rf <;>
      first
      | rfl
      | (rw [h1, h2] <;> rfl)

theorem find_chunk_none_iff (L : List SearchResult) (key : Option (List Char)) :
    (L.find? (fun r => r.chunk_id == key) = Option.none) ↔
      ¬ key ∈ L.map SearchResult.chunk_id := by
  rw [List.find?_eq_none]
  constructor
  · intro h hk
    rcases List.mem_map.mp hk with ⟨r, hr, he⟩
    have := h r hr
    simp [he] at this
  · intro h r hr
    simp only [beq_iff_eq]
    intro he
    exact h (List.mem_map.mpr ⟨r, hr, he⟩)

theorem find_chunk_some_mem (L : List SearchResult) (key : Option (List Char))
    (r : SearchResult) (h : L.find? (fun r' => r'.chunk_id == key) = some r) :
    key ∈ L.map SearchResult.chunk_id := by
  have hmem : r ∈ L := List.mem_of_find?_eq_some h
  have hpred := List.find?_some h
  exact List.mem_map.mpr ⟨r, hmem, by simpa using hpred⟩

theorem hybridFuse_keys_nodup (C F : List SearchResult) (cw fw : ℚ) :
    ((hybridFuse C F cw fw).map Prod.fst).Nodup := by
  unfold hybridFuse
  exact foldl_fuseStep_keys_nodup fw F _
    (foldl_fuseStep_keys_nodup cw C [] (by simp))

theorem hybridFuse_keys (C F : List SearchResult) (cw fw : ℚ)
    (hC : (C.map SearchResult.chunk_id).Nodup)
    (hF : (F.map SearchResult.chunk_id).Nodup) (key : Option (List Char)) :
    key ∈ (hybridFuse C F cw fw).map Prod.fst ↔
      key ∈ C.map SearchResult.chunk_id ∨ key ∈ F.map SearchResult.chunk_id := by
  rw [← assocFind_isSome_iff, hybridFuse_find C F cw fw hC hF key]
  rcases h1 : C.find? (fun r => r.chunk_id == key) with _ | rc <;>
    rcases h2 : F.find? (fun r => r.chunk_id == key) with _ | rf
  · have c1 := (find_chunk_none_iff C key).mp h1
    have c2 := (find_chunk_none_iff F key).mp h2
    simp [h1, h2, c1, c2]
  · have c2 := find_chunk_some_mem F key rf h2
    simp [h1, h2, c2]
  · have c1 := find_chunk_some_mem C key rc h1
    simp [h1, h2, c1]
  · have c1 := find_chunk_some_mem C key rc h1
    simp [h1, h2, c1]

theorem hybridFuse_score (C F : List SearchResult) (cw fw : ℚ)
    (hC : (C.map SearchResult.chunk_id).Nodup)
    (hF : (F.map SearchResult.chunk_id).Nodup) :
    ∀ p ∈ hybridFuse C F cw fw,
      p.2.score =
        (match C.find? (fun r => r.chunk_id == p.1) with
         | some rc => cw * rc.score
         | Option.none => 0) +
        (match F.find? (fun r => r.chunk_id == p.1) with
         | some rf => fw * rf.score
         | Option.none => 0) := by
  intro p hp
  have hfind := assocFind_of_mem _ (hybridFuse_keys_nodup C F cw fw) p hp
  rw [hybridFuse_find C F cw fw hC hF p.1] at hfind
  rcases h1 : C.find? (fun r => r.chunk_id == p.1) with _ | rc <;>
    rcases h2 : F.find? (fun r => r.chunk_id == p.1) with _ | rf <;>
    rw [h1, h2] at hfind
  · cases hfind
  · injection hfind with h
    rw [← h, h1, h2]
    show rf.score * fw = 0 + fw * rf.score
    ring
  · injection hfind with h
    rw [← h, h1, h2]
    show rc.score * cw = cw * rc.score + 0
    ring
  · injection hfind with h
    rw [← h, h1, h2]
    show rc.score * cw + rf.score * fw = cw * rc.score + fw * rf.score
    ring

theorem insertByScoreDesc_perm (r : SearchResult) (l : List SearchResult) :
    (insertByScoreDesc r l).Perm (r :: l) := by
  induction l with
  | nil => exact List.Perm.refl _
  | cons x xs ih =>
      unfold insertByScoreDesc
      split
      · exact List.Perm.refl _
      · exact (List.Perm.cons x ih).trans (List.Perm.swap r x xs)

theorem pySortDesc_perm (l : List SearchResult) : (pySortDesc l).Perm l := by
  induction l with
  | nil => exact List.Perm.refl _
  | cons x xs ih =>
      unfold pySortDesc
      exact (insertByScoreDesc_perm x (pySortDesc xs)).trans (List.Perm.cons x ih)

theorem insertByScoreDesc_sorted (r : SearchResult) (l : List SearchResult)
    (h : l.Sorted (fun a b : SearchResult => b.score ≤ a.score)) :
    (insertByScoreDesc r l).Sorted (fun a b : SearchResult => b.score ≤ a.score) := by
  induction l with
  | nil => simp [insertByScoreDesc]
  | cons x xs ih =>
      rw [List.sorted_cons] at h
      unfold insertByScoreDesc
      split
      · rename_i hle
        rw [List.sorted_cons]
        refine ⟨?_, List.sorted_cons.mpr h⟩
        intro b hb
        rcases List.mem_cons.mp hb with hb | hb
        · subst hb; exact hle
        · exact le_trans (h.1 b hb) hle
      · rename_i hgt
        push_neg at hgt
        rw [List.sorted_cons]
        refine ⟨?_, ih h.2⟩
        intro b hb
        have : b ∈ r :: xs := (insertByScoreDesc_perm r xs).mem_iff.mp hb
        rcases List.mem_cons.mp this with hb' | hb'
        · subst hb'; exact le_of_lt hgt
        · exact h.1 b hb'

theorem pySortDesc_sorted (l : List SearchResult) :
    (pySortDesc l).Sorted (fun a b : SearchResult => b.score ≤ a.score) := by
  induction l with
  | nil => simp [pySortDesc]
  | cons x xs ih =>
      unfold pySortDesc
      exact insertByScoreDesc_sorted x (pySortDesc xs) ih

theorem hybrid_search_eq (es : ESClient) (query : List Char)
    (gef : List Char → List ℚ) (k : ℕ) (cw fw : ℚ) (C F : List SearchResult)
    (hC : _search_by_content es query gef (k * 2) Option.none = Except.ok C)
    (hF : _search_filename_text es query (k * 2) Option.none = Except.ok F) :
    hybrid_search es query gef k cw fw =
      Except.ok ((pySortDesc ((hybridFuse C F cw fw).map Prod.snd)).take k) := by
  unfold hybrid_search
  rw [hC, hF]
  rfl

/-- C1: for every query, every k ≥ 1 and all weights, hybrid_search runs the
content_only vector search and the filename_text lexical search independently,
each fetching 2k candidates (the `k * 2` sizes in the hypotheses), accumulates
per chunk_id a fused score equal to content_weight * contentScore when the
item is in the content result set plus filename_weight * filenameScore when it
is in the filename_text result set (an item in both sets gets both weighted
contributions summed; an item in one set gets only that weighted term), then
sorts descending by fused score (stably, as Python's sorted) and returns at
most k results.  The result sets are keyed by chunk_id, so distinct chunk_ids
within each set are assumed. -/
theorem C1_hybrid_fusion (es : ESClient) (query : List Char)
    (gef : List Char → List ℚ) (k : ℕ) (cw fw : ℚ) (C F : List SearchResult)
    (hk : 1 ≤ k)
    (hC : _search_by_content es query gef (k * 2) Option.none = Except.ok C)
    (hF : _search_filename_text es query (k * 2) Option.none = Except.ok F)
    (hCn : (C.map SearchResult.chunk_id).Nodup)
    (hFn : (F.map SearchResult.chunk_id).Nodup) :
    hybrid_search es query gef k cw fw =
      Except.ok ((pySortDesc ((hybridFuse C F cw fw).map Prod.snd)).take k) ∧
    (∀ p ∈ hybridFuse C F cw fw,
      p.2.score =
        (match C.find? (fun r => r.chunk_id == p.1) with
         | some rc => cw * rc.score
         | Option.none => 0) +
        (match F.find? (fun r => r.chunk_id == p.1) with
         | some rf => fw * rf.score
         | Option.none => 0)) ∧
    (∀ key, key ∈ (hybridFuse C F cw fw).map Prod.fst ↔
      key ∈ C.map SearchResult.chunk_id ∨ key ∈ F.map SearchResult.chunk_id) ∧
    ((pySortDesc ((hybridFuse C F cw fw).map Prod.snd)).take k).Sorted
      (fun a b : SearchResult => b.score ≤ a.score) ∧
    ((pySortDesc ((hybridFuse C F cw fw).map Prod.snd)).take k).length ≤ k ∧
    (pySortDesc ((hybridFuse C F cw fw).map Prod.snd)).Perm
      ((hybridFuse C F cw fw).map Prod.snd) := by
  refine ⟨hybrid_search_eq es query gef k cw fw C F hC hF,
    hybridFuse_score C F cw fw hCn hFn,
    fun key => hybridFuse_keys C F cw fw hCn hFn key, ?_, ?_,
    pySortDesc_perm _⟩
  · exact (pySortDesc_sorted _).sublist (List.take_sublist _ _)
  · rw [List.length_take]
    exact min_le_left _ _

def hybWitHitA : Hit :=
  { content := [], filename := [], score := 2, chunk_index := Option.none,
    chunk_id := some ("a".toList) }

def hybWitHitB : Hit :=
  { content := [], filename := [], score := 4, chunk_index := Option.none,
    chunk_id := some ("b".toList) }

def hybWitHitB2 : Hit :=
  { content := [], filename := [], score := 10, chunk_index := Option.none,
    chunk_id := some ("b".toList) }

def hybWitHitC : Hit :=
  { content := [], filename := [], score := 6, chunk_index := Option.none,
    chunk_id := some ("c".toList) }

def hybWitClient : ESClient :=
  { vsearch := fun _ _ _ _ => .ok [hybWitHitA, hybWitHitB]
    tsearch := fun _ _ _ => .ok [hybWitHitB2, hybWitHitC] }

def hybWitC : List SearchResult := [hybWitHitA, hybWitHitB].map hitToResult

def hybWitF : List SearchResult := [hybWitHitB2, hybWitHitC].map hitToResult

theorem C1_hybrid_fusion_witness :
    hybrid_search hybWitClient ("q".toList) (fun _ => [1]) 2 1 2 =
      Except.ok ((pySortDesc ((hybridFuse hybWitC hybWitF 1 2).map Prod.snd)).take 2) ∧
    (∀ p ∈ hybridFuse hybWitC hybWitF 1 2,
      p.2.score =
        (match hybWitC.find? (fun r => r.chunk_id == p.1) with
         | some rc => 1 * rc.score
         | Option.none => 0) +
        (match hybWitF.find? (fun r => r.chunk_id == p.1) with
         | some rf => 2 * rf.score
         | Option.none => 0)) ∧
    (∀ key, key ∈ (hybridFuse hybWitC hybWitF 1 2).map Prod.fst ↔
      key ∈ hybWitC.map SearchResult.chunk_id ∨ key ∈ hybWitF.map SearchResult.chunk_id) ∧
    ((pySortDesc ((hybridFuse hybWitC hybWitF 1 2).map Prod.snd)).take 2).Sorted
      (fun a b : SearchResult => b.score ≤ a.score) ∧
    ((pySortDesc ((hybridFuse hybWitC hybWitF 1 2).map Prod.snd)).take 2).length ≤ 2 ∧
    (pySortDesc ((hybridFuse hybWitC hybWitF 1 2).map Prod.snd)).Perm
      ((hybridFuse hybWitC hybWitF 1 2).map Prod.snd) :=
  C1_hybrid_fusion hybWitClient ("q".toList) (fun _ => [1]) 2 1 2 hybWitC hybWitF
    (by decide) rfl rfl (by decide) (by decide)

/-- A healthy backend with no matching documents. -/
def emptyClient : ESClient :=
  { vsearch := fun _ _ _ _ => .ok []
    tsearch := fun _ _ _ => .ok [] }

/-- C2 (code bug): search_similar is NOT exception-free for every search_type.
With search_type "filename_only" the source calls
`self._search_by_filename(query, k, filters)`, binding the integer `k` to the
`get_embedding_fn` parameter; `get_embedding_fn(query)` then calls the integer
and raises TypeError — even with a healthy backend and a working embedding
provider. -/
theorem C2_filename_only_raises :
    search_similar emptyClient ("q".toList) (fun _ => [1]) 3 Option.none
      ("filename_only".toList) = Except.error PyErr.typeError := rfl

def c6Hit : Hit :=
  { content := ("doc text".toList), filename := ("notes.txt".toList), score := 3,
    chunk_index := some 0, chunk_id := some ("id0".toList) }

/-- A backend on which a vector search against filename_embedding would
return a hit. -/
def c6Client : ESClient :=
  { vsearch := fun field _ _ _ =>
      if field = ("filename_embedding".toList) then .ok [c6Hit] else .ok []
    tsearch := fun _ _ _ => .ok [] }

/-- C6 (code bug): with search_type "filename_only", search_similar never
performs the vector search against filename_embedding: it raises TypeError
(because its positional call to `_search_by_filename` passes `k` where the
embedding function is expected), even though that vector search, had it been
run as the claim describes, would have returned a scored result. -/
theorem C6_filename_only_never_searches :
    search_similar c6Client ("q".toList) (fun _ => [1]) 3 Option.none
      ("filename_only".toList) = Except.error PyErr.typeError ∧
    _vector_search c6Client [1] ("filename_embedding".toList) (PyVal.int 3)
      (pyOfFilters Option.none) = Except.ok [hitToResult c6Hit] :=
  ⟨rfl, rfl⟩

/-- C10: any search_type other than "filename_only", "content_only" and
"filename_text" — not just the documented "combined" — silently falls back to
the combined vector search against the combined_embedding field. -/
theorem C10_unknown_search_type_falls_back (es : ESClient) (query : List Char)
    (gef : List Char → List ℚ) (k : ℕ) (filters : Option Filters)
    (st : List Char)
    (h1 : st ≠ ("filename_only".toList)) (h2 : st ≠ ("content_only".toList))
    (h3 : st ≠ ("filename_text".toList)) :
    search_similar es query gef k filters st =
      _vector_search es (gef query) ("combined_embedding".toList) (PyVal.int k)
        (pyOfFilters filters) := by
  unfold search_similar
  rw [if_neg h1, if_neg h2, if_neg h3]
  rfl

theorem C10_unknown_search_type_falls_back_witness :
    search_similar emptyClient ("q".toList) (fun _ => [1]) 3 Option.none
      ("hybrid".toList) =
      _vector_search emptyClient ((fun _ => [(1 : ℚ)]) ("q".toList))
        ("combined_embedding".toList) (PyVal.int 3) (pyOfFilters Option.none) :=
  C10_unknown_search_type_falls_back emptyClient ("q".toList) (fun _ => [1]) 3
    Option.none ("hybrid".toList) (by decide) (by decide) (by decide)

/-- C5 (code bug): the spec requires the effective stride to be
max(1, chunk_size - overlap), never ≤ 0; the source passes
chunk_size - overlap straight to range(), so overlap = chunk_size raises
ValueError and overlap > chunk_size silently yields no chunks for a
non-empty input. -/
theorem C5_unguarded_stride :
    chunk_text sampleMd5 ("A B".toList) 2 2 = Except.error PyErr.valueError ∧
    chunk_text sampleMd5 ("A B".toList) 2 3 = Except.ok [] :=
  ⟨rfl, rfl⟩

/-- C9: within one chunk_text call the chunk_index values are exactly
0, 1, ..., n-1 with no gaps, and input with no words yields no chunks
(for the valid parameter range overlap < chunk_size). -/
theorem C9_chunk_indices (md5hex : List Char → List Char) (text : List Char)
    (c o : ℕ) (h : o < c) :
    ∃ l, chunk_text md5hex text c o = Except.ok l ∧
      l.map DocumentChunk.chunk_index = List.range l.length ∧
      (pySplit text = [] → l = []) := by
  refine ⟨_, chunk_text_eq_produce md5hex text c o h, ?_, ?_⟩
  · rw [produce_map_index, List.range_eq_range']
  · intro he
    rw [he]
    have hs0 : 0 < c - o := by omega
    have hm : ((List.nil (α := List Char)).length + (c - o) - 1) / (c - o) = 0 := by
      rw [Nat.div_eq_zero_iff hs0]
      simp
      omega
    rw [hm]
    rfl

theorem C9_chunk_indices_witness :
    ∃ l, chunk_text sampleMd5 ("A B C D E F".toList) 4 1 = Except.ok l ∧
      l.map DocumentChunk.chunk_index = List.range l.length ∧
      (pySplit ("A B C D E F".toList) = [] → l = []) :=
  C9_chunk_indices sampleMd5 ("A B C D E F".toList) 4 1 (by decide)

/-- The claim's reassembly operation: keep the first chunk's word sequence
whole and strip the overlap-word prefix from every later chunk. -/
def reassemble (o : ℕ) : List (List (List Char)) → List (List Char)
  | [] => []
  | w :: ws => w ++ (ws.map (List.drop o)).flatten

theorem map_drop_map (o : ℕ) (rest : List DocumentChunk) :
    (rest.map (fun ch => pySplit ch.content)).map (List.drop o) =
      rest.map (fun ch => (pySplit ch.content).drop o) := by
  induction rest with
  | nil => rfl
  | cons a l ih => simp [ih]

/-- C4: for every text and chunk_size > overlap ≥ 0, concatenating the word
sequences of the chunks returned by chunk_text, with the overlap-word prefix
of every chunk after the first removed, reconstructs exactly the original
word sequence of the input text. -/
theorem C4_reconstruction (md5hex : List Char → List Char) (text : List Char)
    (c o : ℕ) (h : o < c) :
    ∃ l, chunk_text md5hex text c o = Except.ok l ∧
      reassemble o (l.map (fun ch => pySplit ch.content)) = pySplit text := by
  refine ⟨_, chunk_text_eq_produce md5hex text c o h, ?_⟩
  have hs0 : 0 < c - o := by omega
  have hg : ∀ w ∈ pySplit text, goodWord w := pySplit_good text
  rcases Nat.eq_zero_or_pos (pySplit text).length with hn | hn
  · have he : pySplit text = [] := List.length_eq_zero.mp hn
    rw [he]
    have hm : ((List.nil (α := List Char)).length + (c - o) - 1) / (c - o) = 0 := by
      rw [Nat.div_eq_zero_iff hs0]
      simp
      omega
    rw [hm]
    rfl
  · have hm1 : 1 ≤ ((pySplit text).length + (c - o) - 1) / (c - o) :=
      (Nat.le_div_iff_mul_le hs0).mpr (by omega)
    obtain ⟨m, hm⟩ : ∃ m, ((pySplit text).length + (c - o) - 1) / (c - o) = m + 1 :=
      ⟨_, (Nat.succ_pred_eq_of_pos hm1).symm⟩
    rw [hm]
    simp only [produce]
    have hsplit0 : pySplit (joinWords (((pySplit text).drop 0).take c)) =
        ((pySplit text).drop 0).take c :=
      pySplit_joinWords _ (slice_good (pySplit text) hg 0 c)
    by_cases hbreak : (pySplit text).length ≤ 0 + c
    · rw [if_pos hbreak]
      simp only [reassemble, List.map_cons, List.map_nil, mkDocumentChunk, hsplit0,
        List.flatten_nil, List.append_nil]
      rw [List.drop_zero]
      exact List.take_of_length_le (by omega)
    · rw [if_neg hbreak]
      push_neg at hbreak
      have hjs : 0 + (c - o) < (pySplit text).length := by omega
      have hm' : m = ((pySplit text).length - (0 + (c - o)) + (c - o) - 1) / (c - o) := by
        have hrc := range_count_step (pySplit text).length 0 (c - o) hs0 hjs
        rw [Nat.sub_zero] at hrc
        omega
      simp only [reassemble, List.map_cons, mkDocumentChunk, hsplit0]
      rw [map_drop_map]
      rw [produce_reconstruct md5hex (pySplit text) c o (c - o) rfl h hg m (0 + (c - o)) 1
        (by omega) hm']
      rw [List.drop_zero]
      have e2 : 0 + (c - o) + o = c := by omega
      rw [e2]
      exact List.take_append_drop c (pySplit text)

theorem C4_reconstruction_witness :
    ∃ l, chunk_text sampleMd5 ("A B C D E F".toList) 4 1 = Except.ok l ∧
      reassemble 1 (l.map (fun ch => pySplit ch.content)) =
        pySplit ("A B C D E F".toList) :=
  C4_reconstruction sampleMd5 ("A B C D E F".toList) 4 1 (by decide)

/-- C3 counterexample: for the one-word text "A" with chunk_size 4 and
overlap 1, chunk_text returns 1 chunk while the claim's formula
ceil((len(words) - overlap) / (chunk_size - overlap)) = ceil((1-1)/3)
evaluates to 0. -/
theorem C3_count_counterexample :
    (chunk_text sampleMd5 ("A".toList) 4 1).map List.length = Except.ok 1 ∧
    (⌈(((1 : ℚ) - 1) / (4 - 1))⌉ : ℤ) = 0 := by
  refine ⟨rfl, ?_⟩
  norm_num

/-- C3 (amended): for every text with at least one word and
chunk_size > overlap ≥ 0, chunk_text returns exactly
max 1 ⌈(len(words) - overlap) / (chunk_size - overlap)⌉ chunks (over ℕ:
max 1 ((len(words) - overlap + (chunk_size - overlap) - 1) / (chunk_size -
overlap))); the clamp to 1 is forced because the unclamped formula is 0
whenever len(words) ≤ overlap.  In particular len(words) ≤ chunk_size yields
exactly one chunk, and "A B C D E F" with chunk_size 4, overlap 1 yields
exactly the two chunks "A B C D" and "D E F". -/
theorem C3_chunk_count :
    (∀ (md5hex : List Char → List Char) (text : List Char) (c o : ℕ),
      o < c → pySplit text ≠ [] →
      ∃ l, chunk_text md5hex text c o = Except.ok l ∧
        l.length = max 1 (((pySplit text).length - o + (c - o) - 1) / (c - o)) ∧
        ((pySplit text).length ≤ c → l.length = 1)) ∧
    (chunk_text sampleMd5 ("A B C D E F".toList) 4 1).map
      (List.map DocumentChunk.content) =
      Except.ok [("A B C D".toList), ("D E F".toList)] := by
  constructor
  · intro md5hex text c o h hne
    have hs0 : 0 < c - o := by omega
    have hn : 0 < (pySplit text).length := List.length_pos.mpr hne
    refine ⟨_, chunk_text_eq_produce md5hex text c o h, ?_, ?_⟩
    · have hlen := produce_length md5hex (pySplit text) c o (c - o) rfl h
        (((pySplit text).length + (c - o) - 1) / (c - o)) 0 0 hn
        (by rw [Nat.sub_zero])
      rw [hlen]
      have e : (pySplit text).length - 0 - o = (pySplit text).length - o := by omega
      rw [e]
    · intro hle
      have hlen := produce_length md5hex (pySplit text) c o (c - o) rfl h
        (((pySplit text).length + (c - o) - 1) / (c - o)) 0 0 hn
        (by rw [Nat.sub_zero])
      rw [hlen]
      have hdiv : ((pySplit text).length - 0 - o + (c - o) - 1) / (c - o) ≤ 1 := by
        have hlt : (pySplit text).length - 0 - o + (c - o) - 1 < 2 * (c - o) := by omega
        have := (Nat.div_lt_iff_lt_mul hs0).mpr hlt
        omega
      omega
  · rfl

theorem C3_chunk_count_witness :
    ∃ l, chunk_text sampleMd5 ("A B C D E F".toList) 4 1 = Except.ok l ∧
      l.length = max 1 (((pySplit ("A B C D E F".toList)).length - 1 + (4 - 1) - 1) / (4 - 1)) ∧
      ((pySplit ("A B C D E F".toList)).length ≤ 4 → l.length = 1) :=
  C3_chunk_count.1 sampleMd5 ("A B C D E F".toList) 4 1 (by decide) (by decide)

theorem store_chunks_foldl (idx : ESDoc → Except PyErr Unit) :
    ∀ (chunks : List EmbChunk) (a : ℕ) (t : List ESDoc),
      chunks.foldl
        (fun acc ch =>
          let doc := chunkDoc ch
          match idx doc with
          | .ok _ => (acc.1 + 1, acc.2 ++ [doc])
          | .error _ => acc)
        (a, t) =
      (a + ((chunks.map chunkDoc).filter (fun d => (idx d).isOk)).length,
        t ++ (chunks.map chunkDoc).filter (fun d => (idx d).isOk)) := by
  intro chunks
  induction chunks with
  | nil => intro a t; simp
  | cons ch chs ih =>
      intro a t
      simp only [List.foldl_cons, List.map_cons, List.filter_cons]
      rcases hi : idx (chunkDoc ch) with e | u
      · simp only [hi]
        rw [ih a t]
        simp [Except.isOk, Except.toBool]
      · simp only [hi]
        rw [ih (a + 1) (t ++ [chunkDoc ch])]
        simp [Except.isOk, Except.toBool, List.append_assoc]
        omega

theorem store_chunks_eq (idx : ESDoc → Except PyErr Unit) (chunks : List EmbChunk) :
    store_chunks idx chunks =
      (((chunks.map chunkDoc).filter (fun d => (idx d).isOk)).length,
        (chunks.map chunkDoc).filter (fun d => (idx d).isOk)) := by
  unfold store_chunks
  rw [store_chunks_foldl idx chunks 0 []]
  simp

/-- C7 counterexample: with an embedding provider that always returns the
empty failure value and a backend that accepts every document, store_document
does NOT skip the failed-embedding chunk: the document is persisted with the
empty content_embedding vector and counted in the status message. -/
theorem C7_failed_embedding_not_skipped :
    (store_document sampleMd5 (fun _ => Except.ok ()) (fun _ => [])
        ("hello".toList) ("f.txt".toList) 4 1 true).map
      (fun p => (p.1, p.2.map ESDoc.content_embedding)) =
      Except.ok (statusMsg 1 ("f.txt".toList), [[]]) := rfl

/-- C7 (amended): store_document never aborts on a per-chunk persistence
failure: any exception a chunk's indexing raises is caught and the chunk
skipped, and the status message reports the count of successfully indexed
chunks — exactly the documents the backend accepted, in order.  However a
chunk whose embedding generation fails (provider returns the empty vector) is
not filtered by store_document: its document is still submitted carrying the
empty vector, and is persisted and counted whenever the backend accepts it. -/
theorem C7_store_document_failure_policy (md5hex : List Char → List Char)
    (idx : ESDoc → Except PyErr Unit) (gef : List Char → List ℚ)
    (content filename : List Char) (c o : ℕ) (incl : Bool) (h : o < c) :
    ∃ chunks, chunk_text md5hex content c o = Except.ok chunks ∧
      store_document md5hex idx gef content filename c o incl =
        Except.ok
          (statusMsg (((chunks.map (embedChunk gef filename incl)).map chunkDoc).filter
              (fun d => (idx d).isOk)).length filename,
            ((chunks.map (embedChunk gef filename incl)).map chunkDoc).filter
              (fun d => (idx d).isOk)) := by
  refine ⟨_, chunk_text_eq_produce md5hex content c o h, ?_⟩
  unfold store_document
  rw [chunk_text_eq_produce md5hex content c o h]
  show Except.ok (statusMsg (store_chunks idx _).1 filename, (store_chunks idx _).2) = _
  rw [store_chunks_eq]

theorem C7_store_document_failure_policy_witness :
    ∃ chunks, chunk_text sampleMd5 ("hello world".toList) 4 1 = Except.ok chunks ∧
      store_document sampleMd5 (fun _ => Except.ok ()) (fun _ => [1])
          ("hello world".toList) ("f.txt".toList) 4 1 true =
        Except.ok
          (statusMsg (((chunks.map (embedChunk (fun _ => [1]) ("f.txt".toList) true)).map
              chunkDoc).filter
              (fun d => ((fun _ => Except.ok ()) d : Except PyErr Unit).isOk)).length
            ("f.txt".toList),
            ((chunks.map (embedChunk (fun _ => [1]) ("f.txt".toList) true)).map
              chunkDoc).filter
              (fun d => ((fun _ => Except.ok ()) d : Except PyErr Unit).isOk)) :=
  C7_store_document_failure_policy sampleMd5 (fun _ => Except.ok ()) (fun _ => [1])
    ("hello world".toList) ("f.txt".toList) 4 1 true (by decide)

/-- C8 (code bug): the chunk_id persisted by store_document does not embed the
filename passed to store_document: chunk_text constructs every DocumentChunk
with filename="" and __post_init__ fixes chunk_id at construction time, so the
persisted id is "_<index>_<hash8>"; the later `chunk.filename = filename`
assignment comes too late to influence the id. -/
theorem C8_chunk_id_missing_filename :
    (store_document sampleMd5 (fun _ => Except.ok ()) (fun _ => [1])
        ("hello".toList) ("notes.txt".toList) 500 50 true).map
      (fun p => p.2.map ESDoc.chunk_id) =
      Except.ok [('_' :: natStr 0 ++ '_' :: (sampleMd5 ("hello".toList)).take 8)] ∧
    ('_' :: natStr 0 ++ '_' :: (sampleMd5 ("hello".toList)).take 8) ≠
      (("notes.txt".toList) ++ '_' :: natStr 0 ++ '_' :: (sampleMd5 ("hello".toList)).take 8) := by
  refine ⟨rfl, ?_⟩
  decide
